import Mathlib

/-
  Verification of the vox-slicer audio transcription and segment-export
  pipeline.  The definitions below are shallow embeddings of the TypeScript
  source (src/App.vue and the transcription worker): JavaScript numbers are
  modelled as exact rationals, `Math.ceil` / `Math.floor` / `Math.round` as
  the integer ceiling / floor / floor-of-x-plus-half, typed arrays as lists
  of rationals, and the Vue reactive state as an explicit record that the
  message handlers transform.
-/

set_option maxHeartbeats 1000000

namespace VoxSlicer

/-- A transcript segment as held by the segment store (type `Segment` in the
source).  The source field `end` is a reserved word in Lean, so it is called
`endSeconds` here, following the specification's terminology; the other
field names are the source's. -/
structure Segment where
  id : ℕ
  start : ℚ
  endSeconds : ℚ
  text : String
  selected : Bool
  linkNext : Bool
deriving DecidableEq, Repr

/-- Default segment used for `Inhabited` instances and concrete test data. -/
def defaultSegment : Segment :=
  { id := 0, start := 0, endSeconds := 0, text := "", selected := true, linkNext := false }

instance : Inhabited Segment := ⟨defaultSegment⟩

/-! ## Chunk estimator (worker `estimateChunkTotal`) -/

/-- The worker's `estimateChunkTotal`.  Sample counts, rates and window
lengths are exact rationals; `Math.ceil` is the integer ceiling. -/
def estimateChunkTotal (sampleCount sampleRate chunkLength strideLength : ℚ) : ℤ :=
  if chunkLength ≤ 0 then 1
  else
    let window := sampleRate * chunkLength
    let stride := sampleRate * strideLength
    let jump := window - 2 * stride
    if window ≤ 0 then 1
    else if sampleCount ≤ window then 1
    else if jump ≤ 0 then ⌈sampleCount / window⌉
    else max 1 (⌈(sampleCount - window) / jump⌉ + 1)

/-- The estimator exactly as the specification words it: 1 when the window
configuration is degenerate or the audio fits into a single window, the
non-overlapping fallback `ceil(sampleCount/window)` when the jump is not
positive, and `max(1, ceil((sampleCount-window)/jump) + 1)` otherwise. -/
def estimateTotalSpec (sampleCount sampleRate chunkLength strideLength : ℚ) : ℤ :=
  let window := sampleRate * chunkLength
  let stride := sampleRate * strideLength
  let jump := window - 2 * stride
  if chunkLength ≤ 0 ∨ window ≤ 0 then 1
  else if sampleCount ≤ window then 1
  else if jump ≤ 0 then ⌈sampleCount / window⌉
  else max 1 (⌈(sampleCount - window) / jump⌉ + 1)

lemma estimateChunkTotal_def (sampleCount sampleRate chunkLength strideLength : ℚ) :
    estimateChunkTotal sampleCount sampleRate chunkLength strideLength
      = if chunkLength ≤ 0 then 1
        else if sampleRate * chunkLength ≤ 0 then 1
        else if sampleCount ≤ sampleRate * chunkLength then 1
        else if sampleRate * chunkLength - 2 * (sampleRate * strideLength) ≤ 0 then
          ⌈sampleCount / (sampleRate * chunkLength)⌉
        else max 1 (⌈(sampleCount - sampleRate * chunkLength)
            / (sampleRate * chunkLength - 2 * (sampleRate * strideLength))⌉ + 1) := rfl

lemma one_le_estimateChunkTotal (sampleCount sampleRate chunkLength strideLength : ℚ) :
    1 ≤ estimateChunkTotal sampleCount sampleRate chunkLength strideLength := by
  rw [estimateChunkTotal_def]
  split_ifs with h1 h2 h3 h4
  · exact le_refl 1
  · exact le_refl 1
  · exact le_refl 1
  · have hw : (0 : ℚ) < sampleRate * chunkLength := lt_of_not_le h2
    have hc : (0 : ℚ) < sampleCount := lt_trans hw (lt_of_not_le h3)
    have : (0 : ℚ) < sampleCount / (sampleRate * chunkLength) := div_pos hc hw
    exact Int.ceil_pos.mpr this
  · exact le_max_left 1 _

/-- C2: for all inputs the chunk estimator computes exactly the
specification's case split (1 on a degenerate window, 1 when the audio fits
in one window, `ceil(sampleCount/window)` when the jump is non-positive, and
`max(1, ceil((sampleCount-window)/jump)+1)` otherwise) and its result is an
integer that is at least 1. -/
theorem estimateChunkTotal_eq_spec (sampleCount sampleRate chunkLength strideLength : ℚ) :
    estimateChunkTotal sampleCount sampleRate chunkLength strideLength
        = estimateTotalSpec sampleCount sampleRate chunkLength strideLength ∧
      1 ≤ estimateChunkTotal sampleCount sampleRate chunkLength strideLength := by
  refine ⟨?_, one_le_estimateChunkTotal sampleCount sampleRate chunkLength strideLength⟩
  rw [estimateChunkTotal_def]
  unfold estimateTotalSpec
  by_cases h1 : chunkLength ≤ 0 <;> by_cases h2 : sampleRate * chunkLength ≤ 0 <;>
    simp [h1, h2]

/-- C8: for a fixed positive sample rate, chunk length and stride length the
estimator is monotone non-decreasing in the sample count, it returns 1 at a
sample count of exactly one window, and it returns 1 at a sample count of
zero. -/
theorem estimateChunkTotal_monotone (sampleRate chunkLength strideLength : ℚ)
    (hr : 0 < sampleRate) (hc : 0 < chunkLength) (hst : 0 < strideLength) :
    (∀ s1 s2 : ℚ, s1 ≤ s2 →
        estimateChunkTotal s1 sampleRate chunkLength strideLength
          ≤ estimateChunkTotal s2 sampleRate chunkLength strideLength) ∧
      estimateChunkTotal (sampleRate * chunkLength) sampleRate chunkLength strideLength = 1 ∧
      estimateChunkTotal 0 sampleRate chunkLength strideLength = 1 := by
  have hw : (0 : ℚ) < sampleRate * chunkLength := mul_pos hr hc
  refine ⟨?_, ?_, ?_⟩
  · intro s1 s2 h12
    rw [estimateChunkTotal_def, estimateChunkTotal_def]
    rw [if_neg (not_le.mpr hc), if_neg (not_le.mpr hc),
      if_neg (not_le.mpr hw), if_neg (not_le.mpr hw)]
    by_cases hs2 : s2 ≤ sampleRate * chunkLength
    · rw [if_pos (le_trans h12 hs2), if_pos hs2]
    · rw [if_neg hs2]
      by_cases hs1 : s1 ≤ sampleRate * chunkLength
      · rw [if_pos hs1]
        by_cases hj : sampleRate * chunkLength - 2 * (sampleRate * strideLength) ≤ 0
        · rw [if_pos hj]
          have hs2' : (0 : ℚ) < s2 := lt_trans hw (lt_of_not_le hs2)
          exact Int.ceil_pos.mpr (div_pos hs2' hw)
        · rw [if_neg hj]
          exact le_max_left 1 _
      · rw [if_neg hs1]
        by_cases hj : sampleRate * chunkLength - 2 * (sampleRate * strideLength) ≤ 0
        · rw [if_pos hj, if_pos hj]
          exact Int.ceil_le_ceil (by gcongr)
        · rw [if_neg hj, if_neg hj]
          have hjp : (0 : ℚ) < sampleRate * chunkLength - 2 * (sampleRate * strideLength) :=
            lt_of_not_le hj
          have : ⌈(s1 - sampleRate * chunkLength)
                / (sampleRate * chunkLength - 2 * (sampleRate * strideLength))⌉
              ≤ ⌈(s2 - sampleRate * chunkLength)
                / (sampleRate * chunkLength - 2 * (sampleRate * strideLength))⌉ :=
            Int.ceil_le_ceil (by gcongr)
          exact max_le_max (le_refl 1) (by omega)
  · rw [estimateChunkTotal_def,
      if_neg (not_le.mpr hc), if_neg (not_le.mpr hw), if_pos (le_refl _)]
  · rw [estimateChunkTotal_def,
      if_neg (not_le.mpr hc), if_neg (not_le.mpr hw), if_pos (le_of_lt hw)]

/-- Witness for C8: the estimator evaluated at exactly one window of samples
(the production configuration 16000 Hz, 15 s chunks, 5 s stride) is 1. -/
theorem estimateChunkTotal_monotone_witness :
    estimateChunkTotal ((16000 : ℚ) * 15) 16000 15 5 = 1 :=
  (estimateChunkTotal_monotone 16000 15 5 (by norm_num) (by norm_num) (by norm_num)).2.1

/-! ## Resampler (`resampleToRate`, identical in App.vue and the worker) -/

/-- JavaScript `Math.round` on a non-negative finite number: floor of the
value plus one half. -/
def jsRound (x : ℚ) : ℤ := ⌊x + 1 / 2⌋

/-- Read of a `Float32Array` at a possibly out-of-range index.  The source
never reads out of range (see the bounds theorem below); an out-of-range
read is modelled by the default value 0. -/
def readSample (input : List ℚ) (i : ℤ) : ℚ :=
  if 0 ≤ i then input.getD i.toNat 0 else 0

/-- The source's `resampleToRate`: identity when the rates agree, otherwise
linear interpolation at fractional source positions, with the successor
index clamped to the last input index and the output length
`max(1, Math.round(input.length * ratio))`. -/
def resampleToRate (input : List ℚ) (sourceRate targetRate : ℚ) : List ℚ :=
  if sourceRate = targetRate then input
  else
    let ratio := targetRate / sourceRate
    let outLength := (max 1 (jsRound ((input.length : ℚ) * ratio))).toNat
    (List.range outLength).map fun (i : ℕ) =>
      let position := (i : ℚ) / ratio
      let index := ⌊position⌋
      let next := min (index + 1) ((input.length : ℤ) - 1)
      let weight := position - (index : ℚ)
      readSample input index * (1 - weight) + readSample input next * weight

lemma resampleToRate_length_of_ne (input : List ℚ) (s t : ℚ) (hst : s ≠ t) :
    (resampleToRate input s t).length
      = (max 1 (jsRound ((input.length : ℚ) * (t / s)))).toNat := by
  rw [resampleToRate, if_neg hst]
  simp only [List.length_map, List.length_range]

/-- Every output position of the resampler lies strictly below the input
length, measured at the fractional source position `i * s / t`. -/
lemma resample_position_lt (input : List ℚ) (s t : ℚ) (hs : 0 < s) (ht : 0 < t)
    (hne : input ≠ []) :
    ∀ i : ℕ, i < (resampleToRate input s t).length →
      (i : ℚ) * s / t < (input.length : ℚ) := by
  intro i hi
  have hn : 0 < input.length := List.length_pos.mpr hne
  have hnq : (0 : ℚ) < (input.length : ℚ) := by exact_mod_cast hn
  by_cases hst : s = t
  · subst hst
    rw [resampleToRate, if_pos rfl] at hi
    have : (i : ℚ) * s / s = (i : ℚ) := by
      field_simp
    rw [this]
    exact_mod_cast hi
  · rw [resampleToRate_length_of_ne input s t hst] at hi
    rcases Nat.eq_zero_or_pos i with h0 | h1
    · subst h0
      simpa using hnq
    · have hr1 : (1 : ℤ) ≤ max 1 (jsRound ((input.length : ℚ) * (t / s))) := le_max_left _ _
      have hi' : (i : ℤ) < max 1 (jsRound ((input.length : ℚ) * (t / s))) :=
        Int.lt_toNat.mp hi
      have hmax : max 1 (jsRound ((input.length : ℚ) * (t / s)))
          = jsRound ((input.length : ℚ) * (t / s)) := by
        rcases max_choice 1 (jsRound ((input.length : ℚ) * (t / s))) with h | h
        · rw [h] at hi'
          omega
        · exact h
      rw [hmax] at hi'
      have hz : (i : ℤ) + 1 ≤ jsRound ((input.length : ℚ) * (t / s)) := by omega
      have hq : ((i : ℚ) + 1) ≤ ((jsRound ((input.length : ℚ) * (t / s)) : ℤ) : ℚ) := by
        exact_mod_cast hz
      have hfl : ((jsRound ((input.length : ℚ) * (t / s)) : ℤ) : ℚ)
          ≤ (input.length : ℚ) * (t / s) + 1 / 2 := by
        simpa [jsRound] using
          Int.floor_le ((input.length : ℚ) * (t / s) + 1 / 2)
      have hlt : (i : ℚ) < (input.length : ℚ) * (t / s) := by linarith
      rw [div_lt_iff ht]
      have hlt' : (i : ℚ) < (input.length : ℚ) * t / s := by
        rw [mul_div_assoc]
        exact hlt
      have := (lt_div_iff hs).mp hlt'
      linarith [this]

lemma resampleToRate_of_ne (input : List ℚ) (s t : ℚ) (hst : s ≠ t) :
    resampleToRate input s t
      = (List.range (max 1 (jsRound ((input.length : ℚ) * (t / s)))).toNat).map
          fun (i : ℕ) =>
            readSample input ⌊(i : ℚ) / (t / s)⌋
                * (1 - ((i : ℚ) / (t / s) - (⌊(i : ℚ) / (t / s)⌋ : ℚ)))
              + readSample input (min (⌊(i : ℚ) / (t / s)⌋ + 1) ((input.length : ℤ) - 1))
                * ((i : ℚ) / (t / s) - (⌊(i : ℚ) / (t / s)⌋ : ℚ)) := by
  rw [resampleToRate, if_neg hst]

lemma resampleToRate_getD_of_ne (input : List ℚ) (s t : ℚ) (hst : s ≠ t) (i : ℕ)
    (hi : i < (resampleToRate input s t).length) :
    (resampleToRate input s t).getD i 0
      = readSample input ⌊(i : ℚ) / (t / s)⌋
            * (1 - ((i : ℚ) / (t / s) - (⌊(i : ℚ) / (t / s)⌋ : ℚ)))
          + readSample input (min (⌊(i : ℚ) / (t / s)⌋ + 1) ((input.length : ℤ) - 1))
            * ((i : ℚ) / (t / s) - (⌊(i : ℚ) / (t / s)⌋ : ℚ)) := by
  rw [resampleToRate_of_ne input s t hst] at hi ⊢
  rw [List.getD_eq_getElem?_getD, List.getElem?_eq_getElem hi]
  simp only [List.getElem_map, List.getElem_range, Option.getD_some]

/-- C7: the resampler is the identity when the two rates agree; otherwise the
output length is `max 1 (round (inputLength * targetRate / sourceRate))`,
every output sample is the linear blend of the input at the floor of the
fractional source position `i * sourceRate / targetRate` and at its clamped
successor, weighted by the fractional part, and the first output sample
equals the first input sample. -/
theorem resampleToRate_spec (input : List ℚ) (s t : ℚ) (hs : 0 < s) (ht : 0 < t)
    (hne : input ≠ []) :
    (s = t → resampleToRate input s t = input) ∧
      (s ≠ t → (resampleToRate input s t).length
          = (max 1 (jsRound ((input.length : ℚ) * (t / s)))).toNat) ∧
      (∀ i : ℕ, s ≠ t → i < (resampleToRate input s t).length →
        (resampleToRate input s t).getD i 0
          = readSample input ⌊(i : ℚ) * s / t⌋ * (1 - Int.fract ((i : ℚ) * s / t))
              + readSample input (min (⌊(i : ℚ) * s / t⌋ + 1) ((input.length : ℤ) - 1))
                * Int.fract ((i : ℚ) * s / t)) ∧
      (resampleToRate input s t).getD 0 0 = input.headI := by
  have hpos : ∀ i : ℕ, (i : ℚ) / (t / s) = (i : ℚ) * s / t := by
    intro i
    rw [div_div_eq_mul_div]
  refine ⟨?_, ?_, ?_, ?_⟩
  · intro h
    rw [resampleToRate, if_pos h]
  · intro hst
    exact resampleToRate_length_of_ne input s t hst
  · intro i hst hi
    rw [resampleToRate_getD_of_ne input s t hst i hi, hpos i, Int.fract]
  · by_cases hst : s = t
    · rw [resampleToRate, if_pos hst]
      obtain ⟨a, l, rfl⟩ := List.exists_cons_of_ne_nil hne
      rfl
    · have hlen : 0 < (resampleToRate input s t).length := by
        rw [resampleToRate_length_of_ne input s t hst]
        have : (1 : ℤ) ≤ max 1 (jsRound ((input.length : ℚ) * (t / s))) := le_max_left _ _
        omega
      rw [resampleToRate_getD_of_ne input s t hst 0 hlen]
      have h0 : ((0 : ℕ) : ℚ) / (t / s) = 0 := by
        norm_num
      rw [h0]
      have hfl : ⌊(0 : ℚ)⌋ = 0 := Int.floor_zero
      rw [hfl]
      have hread : readSample input 0 = input.headI := by
        rw [readSample, if_pos (le_refl 0)]
        obtain ⟨a, l, rfl⟩ := List.exists_cons_of_ne_nil hne
        rfl
      push_cast
      rw [hread]
      ring

/-- Witness for C7: resampling the two-sample input `[1, 2]` from rate 1 to
rate 2 leaves the first output sample equal to the first input sample. -/
theorem resampleToRate_spec_witness :
    (resampleToRate [1, 2] 1 2).getD 0 0 = ([1, 2] : List ℚ).headI :=
  (resampleToRate_spec [1, 2] 1 2 (by norm_num) (by norm_num) (by decide)).2.2.2

/-- C10: with positive source and target rates and a non-empty input, every
source index the resampler reads is within bounds: the floor index is
between 0 and `input.length - 1`, and the clamped successor index likewise
never exceeds `input.length - 1`. -/
theorem resample_indices_in_bounds (input : List ℚ) (s t : ℚ) (hs : 0 < s) (ht : 0 < t)
    (hne : input ≠ []) :
    ∀ i : ℕ, i < (resampleToRate input s t).length →
      0 ≤ ⌊(i : ℚ) * s / t⌋ ∧ ⌊(i : ℚ) * s / t⌋ ≤ (input.length : ℤ) - 1 ∧
        0 ≤ min (⌊(i : ℚ) * s / t⌋ + 1) ((input.length : ℤ) - 1) ∧
        min (⌊(i : ℚ) * s / t⌋ + 1) ((input.length : ℤ) - 1) ≤ (input.length : ℤ) - 1 := by
  intro i hi
  have hn : 0 < input.length := List.length_pos.mpr hne
  have hfl0 : 0 ≤ ⌊(i : ℚ) * s / t⌋ :=
    Int.floor_nonneg.mpr (by positivity)
  have hflt : ⌊(i : ℚ) * s / t⌋ < (input.length : ℤ) :=
    Int.floor_lt.mpr (by exact_mod_cast resample_position_lt input s t hs ht hne i hi)
  refine ⟨hfl0, by omega, ?_, ?_⟩ <;> omega

/-- Witness for C10: the first interpolated read of a two-sample input
upsampled from rate 1 to rate 2 stays within bounds. -/
theorem resample_indices_in_bounds_witness :
    0 ≤ ⌊((1 : ℕ) : ℚ) * 1 / 2⌋ ∧
      ⌊((1 : ℕ) : ℚ) * 1 / 2⌋ ≤ (([1, 2] : List ℚ).length : ℤ) - 1 ∧
      0 ≤ min (⌊((1 : ℕ) : ℚ) * 1 / 2⌋ + 1) ((([1, 2] : List ℚ).length : ℤ) - 1) ∧
      min (⌊((1 : ℕ) : ℚ) * 1 / 2⌋ + 1) ((([1, 2] : List ℚ).length : ℤ) - 1)
        ≤ (([1, 2] : List ℚ).length : ℤ) - 1 := by
  have hlen : (resampleToRate [1, 2] 1 2).length = 4 := by
    rw [resampleToRate_length_of_ne [1, 2] 1 2 (by norm_num)]
    norm_num [jsRound]
    rfl
  exact resample_indices_in_bounds [1, 2] 1 2 (by norm_num) (by norm_num) (by decide) 1
    (by rw [hlen]; norm_num)

/-! ## Auto-grouper (`applyAutoGroup` in App.vue)

The source function dispatches on the selected mode.  Each mode first
clamps the numeric parameter with `Math.max(1, autoGroupValue)`, resets all
grouping state (`resetGroupingState`), and then sets `linkNext := true` on
the internal members of each intended group.  The `count` and `total`
branches are embedded separately below. -/

/-- The source's `resetGroupingState`: every segment gets
`linkNext := false` and `selected := true`. -/
def resetGroupingState (segs : List Segment) : List Segment :=
  segs.map fun s => { s with linkNext := false, selected := true }

/-- The `count` branch of `applyAutoGroup`: after the reset, segment at
index `idx` is linked to the next one when `(idx+1) % val ≠ 0` and it is not
the last segment.  The empty-list guard mirrors the source's early return. -/
def applyAutoGroupCount (value : ℤ) (segs : List Segment) : List Segment :=
  if segs.length = 0 then segs
  else
    let val := max 1 value
    (resetGroupingState segs).mapIdx fun idx seg =>
      if ((idx : ℤ) + 1) % val ≠ 0 ∧ idx < segs.length - 1 then
        { seg with linkNext := true }
      else seg

/-- Seven placeholder segments, used for the concrete grouping examples. -/
def sampleSegs7 : List Segment := List.replicate 7 defaultSegment

/-- C5: in count mode with a non-empty segment list, the grouper links the
segment at 0-based index `i` exactly when `(i+1) mod (max 1 N) ≠ 0` and `i`
is not the last index; with `N = 3` on 7 segments the link flags are set at
exactly the indices 0, 1, 3, 4, giving groups of sizes 3, 3, 1. -/
theorem applyAutoGroupCount_spec (value : ℤ) (segs : List Segment) (h : segs ≠ []) :
    (applyAutoGroupCount value segs).length = segs.length ∧
      (∀ i, i < segs.length →
        (((applyAutoGroupCount value segs).getD i defaultSegment).linkNext = true ↔
          (((i : ℤ) + 1) % max 1 value ≠ 0 ∧ i ≠ segs.length - 1))) ∧
      (applyAutoGroupCount 3 sampleSegs7).map Segment.linkNext
        = [true, true, false, true, true, false, false] := by
  have hn : segs.length ≠ 0 := by
    have := List.length_pos.mpr h
    omega
  have hlen : (applyAutoGroupCount value segs).length = segs.length := by
    rw [applyAutoGroupCount, if_neg hn]
    simp [List.length_mapIdx, resetGroupingState]
  refine ⟨hlen, ?_, by decide⟩
  intro i hi'
  have hi'' : i < (resetGroupingState segs).length := by
    simpa [resetGroupingState] using hi'
  have hub : i < ((resetGroupingState segs).mapIdx fun (idx : ℕ) (seg : Segment) =>
      if ((idx : ℤ) + 1) % max 1 value ≠ 0 ∧ idx < segs.length - 1 then
        { seg with linkNext := true }
      else seg).length := by
    simpa [List.length_mapIdx, resetGroupingState] using hi'
  have key : (applyAutoGroupCount value segs).getD i defaultSegment
      = if ((i : ℤ) + 1) % max 1 value ≠ 0 ∧ i < segs.length - 1 then
          { (resetGroupingState segs).get ⟨i, hi''⟩ with linkNext := true }
        else (resetGroupingState segs).get ⟨i, hi''⟩ := by
    calc (applyAutoGroupCount value segs).getD i defaultSegment
        = ((resetGroupingState segs).mapIdx fun (idx : ℕ) (seg : Segment) =>
            if ((idx : ℤ) + 1) % max 1 value ≠ 0 ∧ idx < segs.length - 1 then
              { seg with linkNext := true }
            else seg).getD i defaultSegment := by
          rw [applyAutoGroupCount, if_neg hn]
      _ = ((resetGroupingState segs).mapIdx fun (idx : ℕ) (seg : Segment) =>
            if ((idx : ℤ) + 1) % max 1 value ≠ 0 ∧ idx < segs.length - 1 then
              { seg with linkNext := true }
            else seg).get ⟨i, hub⟩ := by
          rw [List.getD_eq_getElem?_getD, List.getElem?_eq_getElem hub, Option.getD_some,
            List.get_eq_getElem]
      _ = if ((i : ℤ) + 1) % max 1 value ≠ 0 ∧ i < segs.length - 1 then
            { (resetGroupingState segs).get ⟨i, hi''⟩ with linkNext := true }
          else (resetGroupingState segs).get ⟨i, hi''⟩ :=
          List.get_mapIdx (resetGroupingState segs) _ i hi''
  rw [key]
  have hreset : ((resetGroupingState segs).get ⟨i, hi''⟩).linkNext = false := by
    simp [resetGroupingState, List.get_eq_getElem, List.getElem_map]
  constructor
  · intro hlink
    by_contra hc
    rw [not_and_or] at hc
    have hcond : ¬ (((i : ℤ) + 1) % max 1 value ≠ 0 ∧ i < segs.length - 1) := by
      rcases hc with hc | hc
      · push_neg at hc
        intro hand
        exact hand.1 hc
      · push_neg at hc
        intro hand
        omega
    rw [if_neg hcond, hreset] at hlink
    exact Bool.false_ne_true hlink
  · intro hc
    have hcond : ((i : ℤ) + 1) % max 1 value ≠ 0 ∧ i < segs.length - 1 := by
      refine ⟨hc.1, ?_⟩
      have := hc.2
      omega
    rw [if_pos hcond]

/-- Witness for C5: count mode with `N = 3` on the seven sample segments
produces link flags at exactly the indices 0, 1, 3 and 4. -/
theorem applyAutoGroupCount_spec_witness :
    (applyAutoGroupCount 3 sampleSegs7).map Segment.linkNext
      = [true, true, false, true, true, false, false] :=
  (applyAutoGroupCount_spec 3 sampleSegs7 (by decide)).2.2

/-- In-place update of the segment at index `j`, modelling the source's
`raw[cursor].linkNext = true` assignment on the reactive array. -/
def modifyIdx (f : Segment → Segment) : List Segment → ℕ → List Segment
  | [], _ => []
  | x :: xs, 0 => f x :: xs
  | x :: xs, n + 1 => x :: modifyIdx f xs n

/-- The body of the inner `for i` loop of the total mode: advance the
cursor, and link the segment at the cursor unless it is the last sentence
overall or the last member of the current group. -/
def totalInnerBody (total gsize : ℕ) (st2 : ℕ × List Segment) (i : ℕ) :
    ℕ × List Segment :=
  (st2.1 + 1,
    if st2.1 ≠ total - 1 ∧ i ≠ gsize - 1 then
      modifyIdx (fun s => { s with linkNext := true }) st2.2 st2.1
    else st2.2)

/-- One iteration of the outer `for g` loop of the total mode: run the inner
loop over the members of a group of size `gsize`. -/
def totalGroupStep (total : ℕ) (st : ℕ × List Segment) (gsize : ℕ) :
    ℕ × List Segment :=
  (List.range gsize).foldl (totalInnerBody total gsize) st

/-- The `total` branch of `applyAutoGroup`: clamp the requested group count
to `1..=segmentCount`, compute the base group size and remainder, then walk
the segment list with a cursor, linking every member of each group except
its last, and never the very last segment. -/
def applyAutoGroupTotal (value : ℤ) (segs : List Segment) : List Segment :=
  if segs.length = 0 then segs
  else
    let val := max 1 value
    let totalSentences := segs.length
    let targetGroups := min val.toNat totalSentences
    let baseSize := totalSentences / targetGroups
    let remainder := totalSentences % targetGroups
    ((List.range targetGroups).foldl
      (fun (st : ℕ × List Segment) g =>
        let currentGroupSize := if g < remainder then baseSize + 1 else baseSize
        totalGroupStep totalSentences st currentGroupSize)
      (0, resetGroupingState segs)).2

/-- The group sizes the specification prescribes in total-groups mode: the
first `total % targetGroups` groups get `total / targetGroups + 1` members,
the rest get `total / targetGroups`. -/
def specGroupSizes (total targetGroups : ℕ) : List ℕ :=
  (List.range targetGroups).map fun g =>
    if g < total % targetGroups then total / targetGroups + 1 else total / targetGroups

/-- The link-flag pattern induced by a list of group sizes: inside each group
every member except the last is linked to its successor. -/
def specSizeFlags (sizes : List ℕ) : List Bool :=
  sizes.flatMap fun gs => (List.range gs).map fun i => decide (i + 1 < gs)

/-- Cursor/flag-level version of the inner loop body of the total mode. -/
def flagInnerBody (total gsize : ℕ) (st : ℕ × List Bool) (i : ℕ) : ℕ × List Bool :=
  (st.1 + 1, if st.1 ≠ total - 1 ∧ i ≠ gsize - 1 then st.2.set st.1 true else st.2)

/-- Cursor/flag-level version of one whole group of the total mode. -/
def flagGroupStep (total : ℕ) (st : ℕ × List Bool) (gsize : ℕ) : ℕ × List Bool :=
  (List.range gsize).foldl (flagInnerBody total gsize) st

lemma modifyIdx_map_linkNext (xs : List Segment) (j : ℕ) :
    (modifyIdx (fun s => { s with linkNext := true }) xs j).map Segment.linkNext
      = (xs.map Segment.linkNext).set j true := by
  induction xs generalizing j with
  | nil => simp [modifyIdx]
  | cons x xs ih =>
    cases j with
    | zero => simp [modifyIdx]
    | succ n => simp [modifyIdx, ih n]

lemma set_append_length (as bs : List Bool) (v : Bool) :
    (as ++ bs).set as.length v = as ++ bs.set 0 v := by
  induction as with
  | nil => simp
  | cons a as ih => simp [ih]

lemma flagGroupStep_eq (total gsize : ℕ) :
    ∀ (g : ℕ) (pre : List Bool) (k : ℕ), g ≤ k →
      (List.range g).foldl (flagInnerBody total gsize)
          (pre.length, pre ++ List.replicate k false)
        = (pre.length + g,
            pre ++ ((List.range g).map fun i =>
                decide (pre.length + i ≠ total - 1 ∧ i ≠ gsize - 1))
              ++ List.replicate (k - g) false) := by
  intro g
  induction g with
  | zero =>
    intro pre k hk
    simp
  | succ g ih =>
    intro pre k hk
    rw [List.range_succ, List.foldl_append, ih pre k (by omega)]
    have hM : ((List.range g).map fun i =>
        decide (pre.length + i ≠ total - 1 ∧ i ≠ gsize - 1)).length = g := by
      simp
    have hR : List.replicate (k - g) (false : Bool)
        = false :: List.replicate (k - (g + 1)) false := by
      have hkg : k - g = (k - (g + 1)) + 1 := by omega
      rw [hkg, List.replicate_succ]
    have hidx : pre.length + g
        = (pre ++ (List.range g).map fun i =>
            decide (pre.length + i ≠ total - 1 ∧ i ≠ gsize - 1)).length := by
      simp
    rw [List.foldl_cons, List.foldl_nil, flagInnerBody]
    by_cases hcond : pre.length + g ≠ total - 1 ∧ g ≠ gsize - 1
    · rw [if_pos hcond]
      refine Prod.ext (by omega) ?_
      simp only
      rw [hidx, set_append_length, hR, List.set_cons_zero]
      simp [List.map_append, List.append_assoc, hcond.1, hcond.2]
    · rw [if_neg hcond]
      refine Prod.ext (by omega) ?_
      simp only
      rw [hR]
      have hd : decide (pre.length + g ≠ total - 1 ∧ g ≠ gsize - 1) = false := by
        simpa using hcond
      simp only [List.map_append, List.append_assoc, List.map_cons, List.map_nil, hd]
      simp

lemma foldl_flagGroupStep (total : ℕ) :
    ∀ (ss : List ℕ) (pre : List Bool) (k : ℕ),
      (∀ x ∈ ss, 1 ≤ x) → ss.sum = k → pre.length + k = total →
      ss.foldl (flagGroupStep total) (pre.length, pre ++ List.replicate k false)
        = (total, pre ++ specSizeFlags ss) := by
  intro ss
  induction ss with
  | nil =>
    intro pre k _ hsum hlen
    have hk : k = 0 := by simpa using hsum.symm
    subst hk
    simp [specSizeFlags]
    omega
  | cons s rest ih =>
    intro pre k hall hsum hlen
    have hs1 : 1 ≤ s := hall s (by simp)
    have hsk : s ≤ k := by
      have hsum' : s + rest.sum = k := by simpa [List.sum_cons] using hsum
      omega
    rw [List.foldl_cons]
    rw [show flagGroupStep total (pre.length, pre ++ List.replicate k false) s
        = (List.range s).foldl (flagInnerBody total s)
            (pre.length, pre ++ List.replicate k false) from rfl]
    rw [flagGroupStep_eq total s s pre k hsk]
    have hcond : ((List.range s).map fun i =>
          decide (pre.length + i ≠ total - 1 ∧ i ≠ s - 1))
        = (List.range s).map fun i => decide (i + 1 < s) := by
      apply List.map_congr_left
      intro a ha
      have ha' : a < s := List.mem_range.mp ha
      have : (pre.length + a ≠ total - 1 ∧ a ≠ s - 1) ↔ a + 1 < s := by
        constructor
        · intro hx
          omega
        · intro hx
          constructor
          · omega
          · omega
      exact decide_eq_decide.mpr this
    rw [hcond]
    have hpre' : pre.length + s
        = (pre ++ (List.range s).map fun i => decide (i + 1 < s)).length := by
      simp
    have happ : pre ++ ((List.range s).map fun i => decide (i + 1 < s))
          ++ List.replicate (k - s) false
        = (pre ++ (List.range s).map fun i => decide (i + 1 < s))
          ++ List.replicate (k - s) false := by
      simp [List.append_assoc]
    rw [hpre', happ, ih (pre ++ (List.range s).map fun i => decide (i + 1 < s)) (k - s)
      (fun x hx => hall x (by simp [hx]))
      (by have hsum' : s + rest.sum = k := by simpa [List.sum_cons] using hsum
          omega)
      (by simp
          omega)]
    simp [specSizeFlags, List.append_assoc]

lemma resetGroupingState_flags (segs : List Segment) :
    (resetGroupingState segs).map Segment.linkNext
      = List.replicate segs.length false := by
  rw [resetGroupingState, List.map_map]
  have : (Segment.linkNext ∘ fun s => { s with linkNext := false, selected := true })
      = fun _ : Segment => false := by
    funext s
    rfl
  rw [this]
  exact List.map_const segs false

lemma specGroupSizes_sum_aux :
    ∀ (tg b r : ℕ), r ≤ tg →
      ((List.range tg).map fun g => if g < r then b + 1 else b).sum = tg * b + r := by
  intro tg
  induction tg with
  | zero =>
    intro b r hr
    interval_cases r
    simp
  | succ n ih =>
    intro b r hr
    rw [List.range_succ, List.map_append, List.sum_append]
    by_cases hrn : r ≤ n
    · rw [ih b r hrn]
      have : ((([n].map fun g => if g < r then b + 1 else b)).sum) = b := by
        simp
        omega
      rw [this]
      ring
    · have hr' : r = n + 1 := by omega
      subst hr'
      have hmap : ((List.range n).map fun g => if g < n + 1 then b + 1 else b)
          = (List.range n).map fun _ => b + 1 := by
        apply List.map_congr_left
        intro a ha
        exact if_pos (by have := List.mem_range.mp ha; omega)
      rw [hmap]
      have hsum : ((List.range n).map fun _ : ℕ => b + 1).sum = n * (b + 1) := by
        rw [show (fun _ : ℕ => b + 1) = Function.const ℕ (b + 1) from rfl,
          List.map_const]
        simp [List.sum_replicate, smul_eq_mul]
      rw [hsum]
      have : (([n].map fun g => if g < n + 1 then b + 1 else b)).sum = b + 1 := by
        simp
      rw [this]
      ring

lemma specGroupSizes_sum (total tg : ℕ) (h1 : 1 ≤ tg) (h2 : tg ≤ total) :
    (specGroupSizes total tg).sum = total := by
  rw [specGroupSizes, specGroupSizes_sum_aux tg (total / tg) (total % tg)
    (le_of_lt (Nat.mod_lt total (by omega)))]
  have := Nat.div_add_mod total tg
  omega

lemma specGroupSizes_pos (total tg : ℕ) (h1 : 1 ≤ tg) (h2 : tg ≤ total) :
    ∀ x ∈ specGroupSizes total tg, 1 ≤ x := by
  intro x hx
  rw [specGroupSizes] at hx
  obtain ⟨g, _, rfl⟩ := List.mem_map.mp hx
  have hb : 1 ≤ total / tg := (Nat.one_le_div_iff (by omega)).mpr h2
  by_cases hg : g < total % tg
  · rw [if_pos hg]
    omega
  · rw [if_neg hg]
    omega

lemma totalInnerBody_comm (total gsize : ℕ) (x : ℕ × List Segment) (i : ℕ) :
    flagInnerBody total gsize (x.1, x.2.map Segment.linkNext) i
      = ((totalInnerBody total gsize x i).1,
          (totalInnerBody total gsize x i).2.map Segment.linkNext) := by
  rw [flagInnerBody, totalInnerBody]
  refine Prod.ext rfl ?_
  simp only
  by_cases hc : x.1 ≠ total - 1 ∧ i ≠ gsize - 1
  · rw [if_pos hc, if_pos hc, modifyIdx_map_linkNext]
  · rw [if_neg hc, if_neg hc]

lemma totalGroupStep_comm (total : ℕ) (x : ℕ × List Segment) (gsize : ℕ) :
    flagGroupStep total (x.1, x.2.map Segment.linkNext) gsize
      = ((totalGroupStep total x gsize).1,
          (totalGroupStep total x gsize).2.map Segment.linkNext) := by
  rw [flagGroupStep, totalGroupStep]
  exact List.foldl_hom (fun st : ℕ × List Segment => (st.1, st.2.map Segment.linkNext))
    (totalInnerBody total gsize) (flagInnerBody total gsize) (List.range gsize) x
    (fun a b => totalInnerBody_comm total gsize a b)

lemma applyAutoGroupTotal_flags (value : ℤ) (segs : List Segment)
    (h : ¬ segs.length = 0) :
    (applyAutoGroupTotal value segs).map Segment.linkNext
      = specSizeFlags (specGroupSizes segs.length
          (min (max 1 value).toNat segs.length)) := by
  have htg1 : 1 ≤ min (max 1 value).toNat segs.length := by
    have h1 : (1 : ℤ) ≤ max 1 value := le_max_left 1 value
    omega
  have htg2 : min (max 1 value).toNat segs.length ≤ segs.length := min_le_right _ _
  rw [applyAutoGroupTotal, if_neg h]
  show ((List.range (min (max 1 value).toNat segs.length)).foldl
      (fun (st : ℕ × List Segment) g => totalGroupStep segs.length st
        (if g < segs.length % min (max 1 value).toNat segs.length then
          segs.length / min (max 1 value).toNat segs.length + 1
        else segs.length / min (max 1 value).toNat segs.length))
      (0, resetGroupingState segs)).2.map Segment.linkNext
    = specSizeFlags (specGroupSizes segs.length (min (max 1 value).toNat segs.length))
  have hh := List.foldl_hom
    (fun st : ℕ × List Segment => (st.1, st.2.map Segment.linkNext))
    (fun (st : ℕ × List Segment) g => totalGroupStep segs.length st
      (if g < segs.length % min (max 1 value).toNat segs.length then
        segs.length / min (max 1 value).toNat segs.length + 1
      else segs.length / min (max 1 value).toNat segs.length))
    (fun (st : ℕ × List Bool) g => flagGroupStep segs.length st
      (if g < segs.length % min (max 1 value).toNat segs.length then
        segs.length / min (max 1 value).toNat segs.length + 1
      else segs.length / min (max 1 value).toNat segs.length))
    (List.range (min (max 1 value).toNat segs.length))
    ((0 : ℕ), resetGroupingState segs)
    (fun x y => totalGroupStep_comm segs.length x _)
  have hstep : ((List.range (min (max 1 value).toNat segs.length)).foldl
      (fun (st : ℕ × List Segment) g => totalGroupStep segs.length st
        (if g < segs.length % min (max 1 value).toNat segs.length then
          segs.length / min (max 1 value).toNat segs.length + 1
        else segs.length / min (max 1 value).toNat segs.length))
      (0, resetGroupingState segs)).2.map Segment.linkNext
      = ((List.range (min (max 1 value).toNat segs.length)).foldl
        (fun (st : ℕ × List Bool) g => flagGroupStep segs.length st
          (if g < segs.length % min (max 1 value).toNat segs.length then
            segs.length / min (max 1 value).toNat segs.length + 1
          else segs.length / min (max 1 value).toNat segs.length))
        ((0 : ℕ), (resetGroupingState segs).map Segment.linkNext)).2 := by
    rw [hh]
  rw [hstep, resetGroupingState_flags]
  have hm : ((List.range (min (max 1 value).toNat segs.length)).foldl
      (fun (st : ℕ × List Bool) g => flagGroupStep segs.length st
        (if g < segs.length % min (max 1 value).toNat segs.length then
          segs.length / min (max 1 value).toNat segs.length + 1
        else segs.length / min (max 1 value).toNat segs.length))
      ((0 : ℕ), List.replicate segs.length false))
      = (specGroupSizes segs.length (min (max 1 value).toNat segs.length)).foldl
        (flagGroupStep segs.length) ((0 : ℕ), List.replicate segs.length false) := by
    rw [specGroupSizes, List.foldl_map]
  rw [hm]
  have hfin := foldl_flagGroupStep segs.length
    (specGroupSizes segs.length (min (max 1 value).toNat segs.length))
    [] segs.length
    (specGroupSizes_pos segs.length (min (max 1 value).toNat segs.length) htg1 htg2)
    (specGroupSizes_sum segs.length (min (max 1 value).toNat segs.length) htg1 htg2)
    (by simp)
  simp only [List.length_nil, List.nil_append] at hfin
  rw [hfin]

/-- C4: in total-groups mode on a non-empty segment list the parameter is
clamped to `1..=total`; the resulting link flags are exactly those of the
group sizes prescribed by the specification (the first `total mod G` groups
get `base+1` members, the rest `base`, consumed in order, linking all but
the last member of each group and never the very last segment); and with
`G = 3` on 7 segments the group sizes are `[3, 2, 2]`. -/
theorem applyAutoGroupTotal_spec (value : ℤ) (segs : List Segment) (h : segs ≠ []) :
    1 ≤ min (max 1 value).toNat segs.length ∧
      min (max 1 value).toNat segs.length ≤ segs.length ∧
      (applyAutoGroupTotal value segs).map Segment.linkNext
        = specSizeFlags (specGroupSizes segs.length
            (min (max 1 value).toNat segs.length)) ∧
      specGroupSizes 7 3 = [3, 2, 2] ∧
      (applyAutoGroupTotal 3 sampleSegs7).map Segment.linkNext
        = [true, true, false, true, false, true, false] := by
  have hn : ¬ segs.length = 0 := by
    have := List.length_pos.mpr h
    omega
  have h1 : (1 : ℤ) ≤ max 1 value := le_max_left 1 value
  refine ⟨by omega, min_le_right _ _, applyAutoGroupTotal_flags value segs hn,
    by decide, by decide⟩

/-- Witness for C4: total mode with `G = 3` on the seven sample segments
distributes the remainder to the first group, giving sizes `[3, 2, 2]`. -/
theorem applyAutoGroupTotal_spec_witness : specGroupSizes 7 3 = [3, 2, 2] :=
  (applyAutoGroupTotal_spec 3 sampleSegs7 (by decide)).2.2.2.1

/-! ## Group derivation and export (`buildGroups`, `generateAndDownload`)

The source's `buildGroups` walks the segment list with a `current`
accumulator and an index, pushing the accumulator as a finished group
whenever the chain breaks (`linkNext` false) or the last segment is reached,
and only when the accumulator is non-empty.  The recursion below consumes
the list left to right; `idx = n - 1` holds exactly when the remaining list
is the final element, as in the source's `forEach`. -/

def buildGroupsGo (n : ℕ) :
    List (List Segment) → List Segment → ℕ → List Segment → List (List Segment)
  | groups, _, _, [] => groups
  | groups, current, idx, seg :: rest =>
    if (seg.linkNext = false ∨ idx = n - 1) ∧
        (if seg.selected then current ++ [seg] else current) ≠ [] then
      buildGroupsGo n (groups ++ [if seg.selected then current ++ [seg] else current])
        [] (idx + 1) rest
    else
      buildGroupsGo n groups (if seg.selected then current ++ [seg] else current)
        (idx + 1) rest

/-- The source's `buildGroups`. -/
def buildGroups (segs : List Segment) : List (List Segment) :=
  buildGroupsGo segs.length [] [] 0 segs

/-- The maximal runs of consecutive segments joined by `linkNext`, as the
specification describes them: a chain breaks after any segment whose
`linkNext` is false, and at the end of the list. -/
def splitChains : List Segment → List (List Segment)
  | [] => []
  | [s] => [[s]]
  | s :: r :: rs =>
    if s.linkNext then
      match splitChains (r :: rs) with
      | [] => [[s]]
      | c :: cs => (s :: c) :: cs
    else [s] :: splitChains (r :: rs)

/-- The group list as the specification words it: the maximal `linkNext`
chains, each restricted to its selected members, with all-unselected chains
contributing nothing. -/
def specGroups (segs : List Segment) : List (List Segment) :=
  ((splitChains segs).map fun c => c.filter fun s => s.selected).filter
    fun g => !g.isEmpty

/-- Generalisation of `specGroups` to a walk that starts with a partially
accumulated group `current`; used to state the invariant of
`buildGroupsGo`. -/
def chainGroups (current : List Segment) (segs : List Segment) :
    List (List Segment) :=
  match splitChains segs with
  | [] => []
  | c :: cs =>
    ((current ++ c.filter fun s => s.selected)
        :: cs.map fun c2 => c2.filter fun s => s.selected).filter
      fun g => !g.isEmpty

lemma splitChains_ne_nil (s : Segment) (rest : List Segment) :
    splitChains (s :: rest) ≠ [] := by
  cases rest with
  | nil => simp [splitChains]
  | cons r rs =>
    rw [splitChains]
    by_cases h : s.linkNext
    · rw [if_pos h]
      cases hsc : splitChains (r :: rs) <;> simp
    · rw [if_neg h]
      simp

lemma chainGroups_cons (current : List Segment) (s : Segment) (rest : List Segment)
    (c : List Segment) (cs : List (List Segment))
    (h : splitChains (s :: rest) = c :: cs) :
    chainGroups current (s :: rest)
      = ((current ++ c.filter fun x => x.selected)
          :: cs.map fun c2 => c2.filter fun x => x.selected).filter
        fun g => !g.isEmpty := by
  rw [chainGroups, h]

lemma append_filter_cons (current : List Segment) (s : Segment) (c : List Segment) :
    current ++ (s :: c).filter (fun x => x.selected)
      = (if s.selected then current ++ [s] else current)
        ++ c.filter (fun x => x.selected) := by
  rw [List.filter_cons]
  by_cases hsel : s.selected
  · rw [if_pos hsel, if_pos hsel, List.append_cons]
  · rw [if_neg hsel, if_neg hsel]

lemma buildGroupsGo_eq (n : ℕ) :
    ∀ (segs : List Segment) (groups : List (List Segment))
      (current : List Segment) (idx : ℕ),
      idx + segs.length = n →
      buildGroupsGo n groups current idx segs = groups ++ chainGroups current segs := by
  intro segs
  induction segs with
  | nil =>
    intro groups current idx hidx
    simp [buildGroupsGo, chainGroups, splitChains]
  | cons s rest ih =>
    intro groups current idx hidx
    rw [buildGroupsGo]
    cases rest with
    | nil =>
      have hlast : idx = n - 1 := by
        simp at hidx
        omega
      have hchainS : splitChains [s] = [s] :: ([] : List (List Segment)) := rfl
      have hcur : current ++ ([s].filter fun x => x.selected)
          = (if s.selected then current ++ [s] else current) := by
        simpa using append_filter_cons current s []
      by_cases hc2 : (if s.selected then current ++ [s] else current) ≠ []
      · rw [if_pos ⟨Or.inr hlast, hc2⟩, buildGroupsGo,
          chainGroups_cons current s [] [s] [] hchainS, List.map_nil, hcur,
          List.filter_cons_of_pos (by simpa using hc2), List.filter_nil]
      · rw [if_neg (fun hand => hc2 hand.2), buildGroupsGo,
          chainGroups_cons current s [] [s] [] hchainS, List.map_nil, hcur]
        push_neg at hc2
        rw [hc2, List.filter_cons_of_neg (by simp), List.filter_nil,
          List.append_nil]
    | cons r rs =>
      have hne : ¬ idx = n - 1 := by
        simp at hidx
        omega
      obtain ⟨c, cs, hsc⟩ : ∃ c cs, splitChains (r :: rs) = c :: cs := by
        cases hx : splitChains (r :: rs) with
        | nil => exact absurd hx (splitChains_ne_nil r rs)
        | cons c cs => exact ⟨c, cs, rfl⟩
      by_cases hlink : s.linkNext
      · have hcond : ¬ ((s.linkNext = false ∨ idx = n - 1) ∧
            (if s.selected then current ++ [s] else current) ≠ []) := by
          intro hand
          rcases hand.1 with hx | hx
          · rw [hlink] at hx
            simp at hx
          · exact hne hx
        have hchainL : splitChains (s :: r :: rs) = (s :: c) :: cs := by
          rw [splitChains, if_pos hlink, hsc]
        rw [if_neg hcond,
          ih groups (if s.selected then current ++ [s] else current) (idx + 1)
            (by simp at hidx ⊢; omega)]
        congr 1
        rw [chainGroups_cons current s (r :: rs) (s :: c) cs hchainL,
          chainGroups_cons (if s.selected then current ++ [s] else current) r rs c cs hsc,
          append_filter_cons]
      · have hbreak : s.linkNext = false := by
          simpa using hlink
        have hchainL : splitChains (s :: r :: rs) = [s] :: c :: cs := by
          rw [splitChains, if_neg hlink, hsc]
        have hcur : current ++ ([s].filter fun x => x.selected)
            = (if s.selected then current ++ [s] else current) := by
          simpa using append_filter_cons current s []
        by_cases hc2 : (if s.selected then current ++ [s] else current) ≠ []
        · rw [if_pos ⟨Or.inl hbreak, hc2⟩,
            ih (groups ++ [if s.selected then current ++ [s] else current]) [] (idx + 1)
              (by simp at hidx ⊢; omega),
            List.append_assoc]
          congr 1
          rw [chainGroups_cons current s (r :: rs) [s] (c :: cs) hchainL,
            chainGroups_cons [] r rs c cs hsc, List.map_cons, hcur]
          conv_rhs => rw [List.filter_cons_of_pos (by simpa using hc2)]
          simp only [List.nil_append, List.singleton_append]
        · rw [if_neg (fun hand => hc2 hand.2),
            ih groups (if s.selected then current ++ [s] else current) (idx + 1)
              (by simp at hidx ⊢; omega)]
          congr 1
          push_neg at hc2
          rw [chainGroups_cons (if s.selected then current ++ [s] else current) r rs c cs hsc,
            chainGroups_cons current s (r :: rs) [s] (c :: cs) hchainL, List.map_cons,
            hcur, hc2]
          conv_rhs => rw [List.filter_cons_of_neg (by simp)]
          simp only [List.nil_append]

lemma buildGroups_eq_spec (segs : List Segment) :
    buildGroups segs = specGroups segs := by
  rw [buildGroups, buildGroupsGo_eq segs.length segs [] [] 0 (by simp)]
  cases hsc : splitChains segs with
  | nil => simp [chainGroups, specGroups, hsc]
  | cons c cs => simp [chainGroups, specGroups, hsc]

/-- An exported group as assembled in `generateAndDownload`: the start time
of its first member, the end time of its last member, and the
space-joined member texts. -/
structure ExportEntry where
  startTime : ℚ
  endTime : ℚ
  combinedText : String
deriving DecidableEq, Repr

/-- The pure projection of `generateAndDownload`'s per-group loop:
`startTime = group[0].start`, `endTime = group[group.length-1].end`, and
`combinedText = group.map(g => g.text).join(' ')`. -/
def exportEntries (segs : List Segment) : List ExportEntry :=
  (buildGroups segs).map fun group =>
    { startTime := group.headI.start
      endTime := (group.getLastD defaultSegment).endSeconds
      combinedText := String.intercalate " " (group.map fun g => g.text) }

/-- C3: the export groups are exactly the maximal `linkNext` chains
restricted to selected segments (unselected members are skipped, empty
results dropped), and each exported entry carries the first included
member's start time, the last included member's end time, and the members'
texts joined by single spaces in order. -/
theorem buildGroups_export_spec (segs : List Segment) :
    buildGroups segs = specGroups segs ∧
      exportEntries segs = (specGroups segs).map fun group =>
        { startTime := group.headI.start
          endTime := (group.getLastD defaultSegment).endSeconds
          combinedText := String.intercalate " " (group.map fun g => g.text) } := by
  refine ⟨buildGroups_eq_spec segs, ?_⟩
  rw [exportEntries, buildGroups_eq_spec segs]

/-- C9: every group produced by `buildGroups` is non-empty — a chain whose
members are all unselected contributes no group at all. -/
theorem buildGroups_nonempty (segs : List Segment) :
    ∀ g ∈ buildGroups segs, g ≠ [] := by
  intro g hg
  rw [buildGroups_eq_spec segs, specGroups] at hg
  have hmem := List.of_mem_filter hg
  intro hnil
  rw [hnil] at hmem
  simp at hmem

/-- Witness for C9: on the seven sample segments (no links, all selected)
each derived group is the singleton of one segment, hence non-empty. -/
theorem buildGroups_nonempty_witness : [defaultSegment] ≠ [] :=
  buildGroups_nonempty sampleSegs7 [defaultSegment] (by decide)

/-! ## Job controller (worker message handling in App.vue)

The reactive state of the component is modelled as a record; the
`onmessage` handler installed by `attachWorker` and the state updates of
`handleFileUpload` become functions on that record.  The decoding of the
audio file, the worker postMessage and the other IO effects are outside the
model; only the state transitions are embedded. -/

/-- One chunk as delivered by the worker (`WorkerChunk` in the source):
`timestamp: [start, end]` with a possibly missing end, and the chunk
text. -/
structure WorkerChunk where
  timestampStart : ℚ
  timestampEnd : Option ℚ
  text : String
deriving DecidableEq, Repr

/-- The worker's response messages (`WorkerMessage` in the source).  The
source's `partial` message is named `interim` here because `partial` is a
reserved word in Lean. -/
inductive WorkerMessage where
  | progress (jobId processed total : ℕ)
  | interim (jobId processed total : ℕ) (chunks : List WorkerChunk)
  | done (jobId : ℕ) (chunks : List WorkerChunk)
  | error (jobId : ℕ) (message : String)
deriving DecidableEq, Repr

/-- The `jobId` tag carried by every worker message. -/
def WorkerMessage.jobId : WorkerMessage → ℕ
  | progress j _ _ => j
  | interim j _ _ _ => j
  | done j _ => j
  | error j _ => j

/-- The reactive state of the component that the worker messages and the
upload handler touch. -/
structure AppState where
  activeJobId : ℕ
  segments : List Segment
  status : String
  isLoading : Bool
  isTranscribing : Bool
  selectAll : Bool
  processedChunks : ℕ
  totalChunks : ℕ
deriving DecidableEq, Repr

/-- The initial values of the component's refs. -/
def initialAppState : AppState :=
  { activeJobId := 0
    segments := []
    status := ""
    isLoading := false
    isTranscribing := false
    selectAll := true
    processedChunks := 0
    totalChunks := 0 }

/-- The source's `syncSegmentsFromChunks`: the segment list is rebuilt from
the chunk list, with 1-based positional ids, trimmed text, a missing end
timestamp defaulting to the audio duration, and fresh
`selected := true`, `linkNext := false` flags.  (The source also resets
`selectAll`; that update appears in the message handler below.) -/
def syncSegmentsFromChunks (duration : ℚ) (chunks : List WorkerChunk) :
    List Segment :=
  chunks.mapIdx fun idx chunk =>
    { id := idx + 1
      start := chunk.timestampStart
      endSeconds := chunk.timestampEnd.getD duration
      text := chunk.text.trim
      selected := true
      linkNext := false }

/-- The analysing status line, `正在分析语音内容... (processed/total)`. -/
def analyzingStatus (processed total : ℕ) : String :=
  "正在分析语音内容... (" ++ toString processed ++ "/" ++ toString total ++ ")"

/-- The `onmessage` handler installed by `attachWorker`: any message whose
`jobId` differs from the active job id is discarded; otherwise the state is
updated according to the message type. -/
def handleWorkerMessage (duration : ℚ) (st : AppState) (msg : WorkerMessage) :
    AppState :=
  if msg.jobId ≠ st.activeJobId then st
  else
    match msg with
    | .progress _ processed total =>
      { st with
        processedChunks := processed
        totalChunks := total
        status := analyzingStatus processed total }
    | .interim _ processed total chunks =>
      { st with
        processedChunks := processed
        totalChunks := total
        segments := syncSegmentsFromChunks duration chunks
        selectAll := true
        status := analyzingStatus processed total }
    | .done _ chunks =>
      { st with
        segments := syncSegmentsFromChunks duration chunks
        selectAll := true
        status := ""
        isLoading := false
        isTranscribing := false
        processedChunks := chunks.length
        totalChunks := chunks.length }
    | .error _ message =>
      { st with
        status := if message = "" then "处理失败，请稍后重试。" else message
        isLoading := false
        isTranscribing := false }

/-- The state updates of `handleFileUpload` on its success path up to the
`postMessage` call: reset the transcription state, then allocate the new
job id by incrementing `activeJobId` before any event of the new job can be
observed. -/
def handleFileUpload (st : AppState) : AppState :=
  let st1 := { st with
    status := "正在解码音频..."
    isLoading := true
    isTranscribing := false
    segments := []
    processedChunks := 0
    totalChunks := 0 }
  { st1 with
    activeJobId := st1.activeJobId + 1
    processedChunks := 0
    totalChunks := 0
    isTranscribing := true
    status := "正在分析语音内容..." }

/-- C1: submitting a new job increments the active job id synchronously, and
afterwards any worker message tagged with an older job id — progress,
partial, done or error alike — leaves the whole state (segments, counters,
status, flags) unchanged: no event of a superseded job is ever observable. -/
theorem superseded_job_no_events (d : ℚ) (st : AppState) (msg : WorkerMessage)
    (h : msg.jobId ≤ st.activeJobId) :
    (handleFileUpload st).activeJobId = st.activeJobId + 1 ∧
      handleWorkerMessage d (handleFileUpload st) msg = handleFileUpload st := by
  have hid : (handleFileUpload st).activeJobId = st.activeJobId + 1 := rfl
  refine ⟨hid, ?_⟩
  rw [handleWorkerMessage.eq_def, if_pos]
  omega

/-- Witness for C1: after a submission from the initial state, a progress
message of the prior job id 0 changes nothing. -/
theorem superseded_job_no_events_witness :
    (handleFileUpload initialAppState).activeJobId = initialAppState.activeJobId + 1 ∧
      handleWorkerMessage 0 (handleFileUpload initialAppState)
          (WorkerMessage.progress 0 1 1)
        = handleFileUpload initialAppState :=
  superseded_job_no_events 0 initialAppState (WorkerMessage.progress 0 1 1)
    (by decide)

lemma syncSegmentsFromChunks_getD (d : ℚ) (chunks : List WorkerChunk) (i : ℕ)
    (hi : i < chunks.length) :
    (syncSegmentsFromChunks d chunks).getD i defaultSegment
      = { id := i + 1
          start := (chunks.get ⟨i, hi⟩).timestampStart
          endSeconds := ((chunks.get ⟨i, hi⟩).timestampEnd).getD d
          text := (chunks.get ⟨i, hi⟩).text.trim
          selected := true
          linkNext := false } := by
  have hub : i < (syncSegmentsFromChunks d chunks).length := by
    rw [syncSegmentsFromChunks, List.length_mapIdx]
    exact hi
  calc (syncSegmentsFromChunks d chunks).getD i defaultSegment
      = (syncSegmentsFromChunks d chunks).get ⟨i, hub⟩ := by
        rw [List.getD_eq_getElem?_getD, List.getElem?_eq_getElem hub, Option.getD_some,
          List.get_eq_getElem]
    _ = { id := i + 1
          start := (chunks.get ⟨i, hi⟩).timestampStart
          endSeconds := ((chunks.get ⟨i, hi⟩).timestampEnd).getD d
          text := (chunks.get ⟨i, hi⟩).text.trim
          selected := true
          linkNext := false } :=
        List.get_mapIdx chunks _ i hi

lemma syncSegmentsFromChunks_length (d : ℚ) (chunks : List WorkerChunk) :
    (syncSegmentsFromChunks d chunks).length = chunks.length := by
  rw [syncSegmentsFromChunks, List.length_mapIdx]

/-- C6: every partial and every done event for the active job replaces the
segment list wholesale with `syncSegmentsFromChunks` — independent of the
previous list — and the rebuilt list has positional 1-based ids, every
segment `selected` and not linked, and the last segment's end defaulting to
the audio duration when the engine omits its end timestamp. -/
theorem segments_replaced_on_interim_done (d : ℚ) (st : AppState)
    (jobId processed total : ℕ) (chunks : List WorkerChunk)
    (h : jobId = st.activeJobId) :
    (handleWorkerMessage d st (.interim jobId processed total chunks)).segments
        = syncSegmentsFromChunks d chunks ∧
      (handleWorkerMessage d st (.done jobId chunks)).segments
        = syncSegmentsFromChunks d chunks ∧
      (syncSegmentsFromChunks d chunks).length = chunks.length ∧
      (∀ i, i < chunks.length →
        ((syncSegmentsFromChunks d chunks).getD i defaultSegment).id = i + 1 ∧
          ((syncSegmentsFromChunks d chunks).getD i defaultSegment).selected = true ∧
          ((syncSegmentsFromChunks d chunks).getD i defaultSegment).linkNext = false) ∧
      (∀ c, chunks.getLast? = some c → c.timestampEnd = none →
        ((syncSegmentsFromChunks d chunks).getLast?).map Segment.endSeconds
          = some d) := by
  have hguard : ¬ (WorkerMessage.interim jobId processed total chunks).jobId
      ≠ st.activeJobId := by
    simp [WorkerMessage.jobId, h]
  have hguard2 : ¬ (WorkerMessage.done jobId chunks).jobId ≠ st.activeJobId := by
    simp [WorkerMessage.jobId, h]
  refine ⟨?_, ?_, syncSegmentsFromChunks_length d chunks, ?_, ?_⟩
  · rw [handleWorkerMessage, if_neg hguard]
  · rw [handleWorkerMessage, if_neg hguard2]
  · intro i hi
    rw [syncSegmentsFromChunks_getD d chunks i hi]
    exact ⟨rfl, rfl, rfl⟩
  · intro c hlast hnone
    have hne : chunks ≠ [] := by
      rintro rfl
      simp at hlast
    have hpos : 0 < chunks.length := List.length_pos.mpr hne
    have hlt : chunks.length - 1 < chunks.length := by omega
    rw [List.getLast?_eq_getElem?, List.getElem?_eq_getElem hlt] at hlast
    have hc : chunks.get ⟨chunks.length - 1, hlt⟩ = c := by
      rw [List.get_eq_getElem]
      exact Option.some.inj hlast
    have hlt' : chunks.length - 1 < (syncSegmentsFromChunks d chunks).length := by
      rw [syncSegmentsFromChunks_length]
      exact hlt
    rw [List.getLast?_eq_getElem?, syncSegmentsFromChunks_length,
      List.getElem?_eq_getElem hlt', Option.map_some']
    have hgd : (syncSegmentsFromChunks d chunks).getD (chunks.length - 1) defaultSegment
        = (syncSegmentsFromChunks d chunks).get ⟨chunks.length - 1, hlt'⟩ := by
      rw [List.getD_eq_getElem?_getD, List.getElem?_eq_getElem hlt', Option.getD_some,
        List.get_eq_getElem]
    have := syncSegmentsFromChunks_getD d chunks (chunks.length - 1) hlt
    rw [hgd] at this
    rw [List.get_eq_getElem] at this
    rw [this, hc, hnone]
    rfl

/-- Witness for C6: a partial message for the active job from the initial
state installs exactly the rebuilt segment list. -/
theorem segments_replaced_on_interim_done_witness :
    (handleWorkerMessage 2 initialAppState
        (WorkerMessage.interim 0 1 3 [⟨(0 : ℚ), none, " hi "⟩])).segments
      = syncSegmentsFromChunks 2 [⟨(0 : ℚ), none, " hi "⟩] :=
  (segments_replaced_on_interim_done 2 initialAppState 0 1 3
    [⟨(0 : ℚ), none, " hi "⟩] (by decide)).1

end VoxSlicer
